import Mathlib

/-!
Shallow embedding of the Mini-MAC authentication engine
(`src/receive_check/minimac.cpp`, `src/send/minimac.cpp`, `src/receive_check/minimac.h`).

Bytes are `Nat` values (with `% 256` where the code stores into a `uint8` cell),
the 64-bit counter is a `Nat` with `% 2 ^ 64` at the increment, the EEPROM is a
byte-addressable total function `Nat → Nat`, and the keyed-hash primitive
(HMAC-MD5, an external library excluded by the spec) is an opaque parameter
`hmac : List Nat → List Nat → List Nat` of which the code uses the first
`MINIMAC_TAG_LEN` output bytes.
-/

namespace MiniMac

/-- `MINIMAC_KEY_LEN` from `minimac.h`. -/
def MINIMAC_KEY_LEN : Nat := 16

/-- `MINIMAC_TAG_LEN` from `minimac.h`. -/
def MINIMAC_TAG_LEN : Nat := 4

/-- `MINIMAC_HIST_LEN` from `minimac.h` (λ = 5). -/
def MINIMAC_HIST_LEN : Nat := 5

/-- `MINIMAC_MAX_DATA` from `minimac.h` (CAN data field, 8 bytes). -/
def MINIMAC_MAX_DATA : Nat := 8

/-- `SIGVAL` from `minimac.cpp`: the EEPROM magic signature. -/
def SIGVAL : Nat := 0xAA55AA55

/-- `SIG_ADDR` from `minimac.cpp`. -/
def SIG_ADDR : Nat := 0

/-- `DATA_ADDR = SIG_ADDR + sizeof(SIGVAL)` from `minimac.cpp`. -/
def DATA_ADDR : Nat := SIG_ADDR + 4

/-- The engine's in-memory state: the module-level globals `mm_id`, `mm_key`,
`mm_counter` and the history ledger (`mm_hist` together with `mm_hist_cnt`).
A ledger entry is modelled as the list of its `len` stored bytes; the unused
tail bytes of the fixed 8-byte slot are don't-care per the layout. -/
structure MMState where
  id : Nat
  key : List Nat
  counter : Nat
  hist : List (List Nat)

/-- The EEPROM: a byte-addressable persistent array. -/
abbrev Storage := Nat → Nat

/-- Big-endian byte rendering of a value into `n` bytes, mirroring the loop
`for (i = 7; i >= 0; i--) { buf[off + i] = tmp & 0xFF; tmp >>= 8; }` in
`compute_digest` (the last byte produced is `v % 256`, matching `buf[7]`). -/
def beBytes (v : Nat) : Nat → List Nat
  | 0 => []
  | n + 1 => beBytes (v / 256) n ++ [v % 256]

/-- The composite authentication input assembled by `compute_digest`:
8 bytes of the counter (big-endian), 2 bytes of the CAN id (big-endian,
`buf[off++] = mm_id >> 8; buf[off++] = mm_id & 0xFF`), the concatenation of
the stored history entries in ledger order, then the payload bytes. -/
def authInput (s : MMState) (p : List Nat) : List Nat :=
  beBytes s.counter 8 ++ beBytes s.id 2 ++ s.hist.flatten ++ p

/-- History append of `minimac_sign` / `minimac_verify`: when
`mm_hist_cnt == MINIMAC_HIST_LEN`, each entry is shifted down one slot
(dropping the oldest, index 0) before the new entry is stored at the end. -/
def histAppend (hist : List (List Nat)) (p : List Nat) : List (List Nat) :=
  (if hist.length = MINIMAC_HIST_LEN then hist.drop 1 else hist) ++ [p]

/-- The shared state mutation of `minimac_sign` and a successful
`minimac_verify`: history append/evict followed by `mm_counter++`
(a `uint64_t` increment, hence modulo `2 ^ 64`). -/
def advanceState (s : MMState) (p : List Nat) : MMState :=
  { s with hist := histAppend s.hist p, counter := (s.counter + 1) % 2 ^ 64 }

/-- `EEPROM.put` of a run of bytes starting at `addr`; each stored cell is a
`uint8`, hence the `% 256`. -/
def putBytes (addr : Nat) (bs : List Nat) (σ : Storage) : Storage :=
  match bs with
  | [] => σ
  | b :: rest => putBytes (addr + 1) rest (fun a => if a = addr then b % 256 else σ a)

/-- `EEPROM.get` of an `n`-byte little-endian value at `addr` (AVR `EEPROM.get`
reproduces the in-memory little-endian layout of multi-byte integers). -/
def getLE (σ : Storage) (addr : Nat) : Nat → Nat
  | 0 => 0
  | n + 1 => σ addr + 256 * getLE σ (addr + 1) n

/-- Little-endian byte rendering, the `EEPROM.put` image of an `n`-byte value. -/
def leBytes (v : Nat) : Nat → List Nat
  | 0 => []
  | n + 1 => v % 256 :: leBytes (v / 256) n

/-- The fixed `MINIMAC_MAX_DATA`-byte data block of a history slot as written
by `EEPROM.put(addr, mm_hist[i].data)`: the entry's stored bytes followed by
the slot's don't-care tail bytes (modelled as zero). -/
def slotData (e : List Nat) : List Nat :=
  (e ++ List.replicate MINIMAC_MAX_DATA 0).take MINIMAC_MAX_DATA

/-- The slot-writing loop of `save_state`: for each of the `mm_hist_cnt`
stored entries, write its 1-byte length then its fixed 8-byte data block;
the per-slot stride is `sizeof(len) + MINIMAC_MAX_DATA = 9`. -/
def saveSlots (addr : Nat) (hist : List (List Nat)) (σ : Storage) : Storage :=
  match hist with
  | [] => σ
  | e :: rest =>
      saveSlots (addr + 9) rest (putBytes (addr + 1) (slotData e) (putBytes addr [e.length] σ))

/-- `save_state`: signature at `SIG_ADDR`, counter at `DATA_ADDR`, entry count
at `DATA_ADDR + 8`, then one 9-byte slot per stored entry from
`DATA_ADDR + 9` on. Only `mm_hist_cnt` slots are written by the loop. -/
def save_state (c : Nat) (hist : List (List Nat)) (σ : Storage) : Storage :=
  saveSlots (DATA_ADDR + 9) hist
    (putBytes (DATA_ADDR + 8) [hist.length]
      (putBytes DATA_ADDR (leBytes c 8)
        (putBytes SIG_ADDR (leBytes SIGVAL 4) σ)))

/-- The slot-reading loop of `load_state`: read `n` slots, each a 1-byte
length followed by a fixed 8-byte data block; the in-memory entry keeps the
first `len` bytes of the block (the rest of the slot buffer is don't-care). -/
def loadSlots (σ : Storage) (addr : Nat) : Nat → List (List Nat)
  | 0 => []
  | n + 1 =>
      ((List.range MINIMAC_MAX_DATA).map fun j => σ (addr + 1 + j)).take (σ addr)
        :: loadSlots σ (addr + 9) n

/-- The slot indices the restore loop of `load_state` writes into `mm_hist`:
`for (uint8_t i = 0; i < mm_hist_cnt; i++) { ... mm_hist[i] ... }` where
`mm_hist_cnt` is the entry-count byte just read from the EEPROM. Empty when
the signature check fails (the loop is never reached). -/
def load_slot_indices (σ : Storage) : List Nat :=
  if getLE σ SIG_ADDR 4 = SIGVAL then List.range (σ (DATA_ADDR + 8)) else []

/-- `load_state`: check the 4-byte signature; on mismatch report absent state;
otherwise restore the counter, the entry count and that many slots. -/
def load_state (σ : Storage) : Option (Nat × List (List Nat)) :=
  if getLE σ SIG_ADDR 4 = SIGVAL then
    some (getLE σ DATA_ADDR 8, loadSlots σ (DATA_ADDR + 9) (σ (DATA_ADDR + 8)))
  else
    none

/-- `minimac_init`: store the (16-bit) CAN id, copy the 16-byte key, then
restore state from the EEPROM; if no valid snapshot is found, set
`mm_counter = 0`, `mm_hist_cnt = 0` and persist this fresh state. -/
def minimac_init (can_id : Nat) (key : List Nat) (σ : Storage) : MMState × Storage :=
  match load_state σ with
  | some (c, h) =>
      ({ id := can_id % 2 ^ 16, key := key.take MINIMAC_KEY_LEN, counter := c, hist := h }, σ)
  | none =>
      ({ id := can_id % 2 ^ 16, key := key.take MINIMAC_KEY_LEN, counter := 0, hist := [] },
        save_state 0 [] σ)

/-- `minimac_sign`: compute the digest over the current state and payload,
append its first `MINIMAC_TAG_LEN` bytes to the payload buffer, append the
un-tagged payload to the history (evicting the oldest entry when full),
increment the counter, persist, and return the total length
`payload_len + MINIMAC_TAG_LEN` (a `uint8_t`). Result:
(output buffer, returned total, new state, new EEPROM). -/
def minimac_sign (hmac : List Nat → List Nat → List Nat) (s : MMState) (p : List Nat)
    (σ : Storage) : List Nat × Nat × MMState × Storage :=
  let digest := hmac s.key (authInput s p)
  let s' := advanceState s p
  (p ++ digest.take MINIMAC_TAG_LEN, (p.length + MINIMAC_TAG_LEN) % 256,
    s', save_state s'.counter s'.hist σ)

/-- `minimac_verify`: recompute the digest over the *current* state and the
received payload, compare its first `MINIMAC_TAG_LEN` bytes against the
received tag (`memcmp`); on mismatch return failure with no state change;
on match perform the same append/evict, increment and persist as sign.
Result: (success flag, new state, new EEPROM). -/
def minimac_verify (hmac : List Nat → List Nat → List Nat) (s : MMState)
    (p t : List Nat) (σ : Storage) : Bool × MMState × Storage :=
  let digest := hmac s.key (authInput s p)
  if digest.take MINIMAC_TAG_LEN = t.take MINIMAC_TAG_LEN then
    let s' := advanceState s p
    (true, s', save_state s'.counter s'.hist σ)
  else
    (false, s, σ)

/-- Events driving the engine: a sign call or a verify call, as consumed by
the transport layer. -/
inductive MMEvent where
  | sgn : List Nat → MMEvent
  | vfy : List Nat → List Nat → MMEvent

/-- One engine operation applied to (state, EEPROM). -/
def stepEv (hmac : List Nat → List Nat → List Nat) (st : MMState × Storage) :
    MMEvent → MMState × Storage
  | .sgn p => ((minimac_sign hmac st.1 p st.2).2.2.1, (minimac_sign hmac st.1 p st.2).2.2.2)
  | .vfy p t => ((minimac_verify hmac st.1 p t st.2).2.1, (minimac_verify hmac st.1 p t st.2).2.2)

/-- Run a sequence of engine operations. -/
def runEvents (hmac : List Nat → List Nat → List Nat) (st : MMState × Storage) :
    List MMEvent → MMState × Storage
  | [] => st
  | e :: es => runEvents hmac (stepEv hmac st e) es

/-- Number of state-advancing operations in a run: every sign call, plus every
verify call whose tag check passes in the state it executes in. -/
def succCount (hmac : List Nat → List Nat → List Nat) (st : MMState × Storage) :
    List MMEvent → Nat
  | [] => 0
  | e :: es =>
      (match e with
        | .sgn _ => 1
        | .vfy p t => if (minimac_verify hmac st.1 p t st.2).1 then 1 else 0)
        + succCount hmac (stepEv hmac st e) es

/-- A concrete stand-in for the external keyed-hash primitive, used only to
instantiate the opaque `hmac` parameter at concrete inputs. -/
def demoHmac (k m : List Nat) : List Nat :=
  List.replicate 16 ((k.sum + m.sum + m.length) % 256)

/-- An all-zero EEPROM image. -/
def zeroStorage : Storage := fun _ => 0

/-- A fresh demo engine state (counter 0, empty ledger). -/
def demoState : MMState :=
  { id := 0x123, key := List.replicate 16 7, counter := 0, hist := [] }

/-- A 9-byte payload, one byte beyond `MINIMAC_MAX_DATA`. -/
def p9 : List Nat := List.replicate 9 1

/-- An EEPROM image carrying the valid magic signature and an entry-count byte
of 6, one more than the `MINIMAC_HIST_LEN`-slot history array can hold. -/
def sigma6 : Storage :=
  putBytes SIG_ADDR (leBytes SIGVAL 4) (putBytes (DATA_ADDR + 8) [6] zeroStorage)

/-- An injective pairing-based encoding of byte lists, used to build a
concrete keyed-hash stand-in that separates inputs. -/
def listEnc : List Nat → Nat
  | [] => 0
  | b :: rest => Nat.pair b (listEnc rest) + 1

/-- A concrete keyed-hash stand-in whose 4-byte tag determines the first
8 bytes of the hashed message (the counter field of the digest input), used
to instantiate the opaque `hmac` parameter in replay witnesses. -/
def sepHmac (k m : List Nat) : List Nat :=
  [listEnc (m.take 8), k.length, 0, 0]

section Lemmas

theorem beBytes_length (v n : Nat) : (beBytes v n).length = n := by
  induction n generalizing v with
  | zero => rfl
  | succ n ih => simp [beBytes, ih]

theorem counter_advance_ne {c : Nat} (hc : c < 2 ^ 64) : (c + 1) % 2 ^ 64 ≠ c := by
  rcases Nat.lt_or_ge (c + 1) (2 ^ 64) with h | h
  · rw [Nat.mod_eq_of_lt h]; omega
  · have h2 : c + 1 = 2 ^ 64 := by omega
    rw [h2, Nat.mod_self]; omega

theorem advanceState_ne (s : MMState) (p : List Nat) (hc : s.counter < 2 ^ 64) :
    advanceState s p ≠ s := by
  intro heq
  have h2 := congrArg MMState.counter heq
  simp only [advanceState] at h2
  exact counter_advance_ne hc h2

theorem histAppend_length_le (hist : List (List Nat)) (p : List Nat)
    (h : hist.length ≤ MINIMAC_HIST_LEN) :
    (histAppend hist p).length ≤ MINIMAC_HIST_LEN := by
  unfold histAppend MINIMAC_HIST_LEN at *
  split
  all_goals simp only [List.length_append, List.length_drop, List.length_cons, List.length_nil]
  all_goals omega

theorem histAppend_entry_le (hist : List (List Nat)) (p : List Nat)
    (hent : ∀ e ∈ hist, e.length ≤ MINIMAC_MAX_DATA) (hp : p.length ≤ MINIMAC_MAX_DATA) :
    ∀ e ∈ histAppend hist p, e.length ≤ MINIMAC_MAX_DATA := by
  intro e he
  unfold histAppend at he
  rcases List.mem_append.1 he with h1 | h1
  · have hmem : e ∈ hist := by
      split at h1
      · exact List.mem_of_mem_drop h1
      · exact h1
    exact hent e hmem
  · rw [List.mem_singleton.1 h1]
    exact hp

theorem verify_true_eq (hmac : List Nat → List Nat → List Nat) (s : MMState)
    (p t : List Nat) (σ : Storage)
    (h : (hmac s.key (authInput s p)).take MINIMAC_TAG_LEN = t.take MINIMAC_TAG_LEN) :
    minimac_verify hmac s p t σ
      = (true, advanceState s p,
          save_state ((s.counter + 1) % 2 ^ 64) (histAppend s.hist p) σ) := by
  simp only [minimac_verify, if_pos h]
  rfl

theorem verify_false_eq (hmac : List Nat → List Nat → List Nat) (s : MMState)
    (p t : List Nat) (σ : Storage)
    (h : ¬(hmac s.key (authInput s p)).take MINIMAC_TAG_LEN = t.take MINIMAC_TAG_LEN) :
    minimac_verify hmac s p t σ = (false, s, σ) := by
  simp only [minimac_verify, if_neg h]

theorem pow8succ (n : Nat) : (2 : Nat) ^ (8 * (n + 1)) = 256 * 2 ^ (8 * n) := by
  rw [show 8 * (n + 1) = 8 * n + 8 by ring, pow_add]
  norm_num [Nat.mul_comm]

theorem leBytes_length (v n : Nat) : (leBytes v n).length = n := by
  induction n generalizing v with
  | zero => rfl
  | succ n ih => simp [leBytes, ih]

theorem putBytes_eq_of_lt : ∀ (bs : List Nat) (addr : Nat) (σ : Storage) (a : Nat),
    a < addr → putBytes addr bs σ a = σ a
  | [], _, _, _, _ => rfl
  | _ :: rest, addr, σ, a, h => by
      simp only [putBytes]
      rw [putBytes_eq_of_lt rest (addr + 1) _ a (by omega)]
      exact if_neg (by omega)

theorem putBytes_eq_of_ge : ∀ (bs : List Nat) (addr : Nat) (σ : Storage) (a : Nat),
    addr + bs.length ≤ a → putBytes addr bs σ a = σ a
  | [], _, _, _, _ => rfl
  | _ :: rest, addr, σ, a, h => by
      have hlen : addr + (rest.length + 1) ≤ a := by simpa using h
      simp only [putBytes]
      rw [putBytes_eq_of_ge rest (addr + 1) _ a (by omega)]
      exact if_neg (by omega)

theorem putBytes_getD : ∀ (bs : List Nat) (addr : Nat) (σ : Storage) (i : Nat),
    i < bs.length → putBytes addr bs σ (addr + i) = bs.getD i 0 % 256
  | [], _, _, _, h => absurd h (by simp)
  | b :: rest, addr, σ, 0, _ => by
      simp only [putBytes]
      rw [putBytes_eq_of_lt rest (addr + 1) _ (addr + 0) (by omega)]
      simp
  | b :: rest, addr, σ, i + 1, h => by
      simp only [putBytes]
      have h2 : i < rest.length := by simpa using h
      have e : addr + (i + 1) = addr + 1 + i := by omega
      rw [e, putBytes_getD rest (addr + 1) _ i h2, List.getD_cons_succ]

theorem getLE_congr : ∀ (n : Nat) (σ1 σ2 : Storage) (addr : Nat),
    (∀ j, j < n → σ1 (addr + j) = σ2 (addr + j)) → getLE σ1 addr n = getLE σ2 addr n
  | 0, _, _, _, _ => rfl
  | n + 1, σ1, σ2, addr, h => by
      simp only [getLE]
      rw [show σ1 addr = σ2 addr from h 0 (by omega)]
      rw [getLE_congr n σ1 σ2 (addr + 1) (fun j hj => by
        have h2 := h (j + 1) (by omega)
        have e : addr + (j + 1) = addr + 1 + j := by omega
        rwa [e] at h2)]

theorem getLE_putBytes_leBytes : ∀ (n v addr : Nat) (σ : Storage),
    getLE (putBytes addr (leBytes v n) σ) addr n = v % 2 ^ (8 * n)
  | 0, v, _, _ => by simp [getLE, Nat.mod_one]
  | n + 1, v, addr, σ => by
      simp only [leBytes, putBytes, getLE]
      rw [putBytes_eq_of_lt (leBytes (v / 256) n) (addr + 1) _ addr (by omega),
        getLE_putBytes_leBytes n (v / 256) (addr + 1) _]
      rw [pow8succ, Nat.mod_mul]
      have h2 : v % 256 % 256 = v % 256 := by omega
      simp [h2]

theorem getLE_byte : ∀ (n : Nat) (σ : Storage) (addr : Nat),
    (∀ j, j < n → σ (addr + j) < 256) →
    ∀ j, j < n → getLE σ addr n / 2 ^ (8 * j) % 256 = σ (addr + j)
  | 0, _, _, _, _, hj => absurd hj (by omega)
  | n + 1, σ, addr, hb, 0, _ => by
      simp only [getLE, Nat.mul_zero, pow_zero, Nat.div_one, Nat.add_zero]
      have h0 : σ addr < 256 := by simpa using hb 0 (by omega)
      omega
  | n + 1, σ, addr, hb, j + 1, hj => by
      simp only [getLE]
      rw [pow8succ, ← Nat.div_div_eq_div_mul]
      have h0 : σ addr < 256 := by simpa using hb 0 (by omega)
      have hq : (σ addr + 256 * getLE σ (addr + 1) n) / 256 = getLE σ (addr + 1) n := by
        rw [Nat.add_mul_div_left _ _ (by omega : (0 : Nat) < 256)]
        omega
      rw [hq]
      rw [getLE_byte n σ (addr + 1) (fun i hi => by
        have h2 := hb (i + 1) (by omega)
        have e : addr + (i + 1) = addr + 1 + i := by omega
        rwa [e] at h2) j (by omega)]
      congr 1
      omega

theorem leBytes_getD : ∀ (n v j : Nat), j < n →
    (leBytes v n).getD j 0 = v / 2 ^ (8 * j) % 256
  | 0, _, _, hj => absurd hj (by omega)
  | _ + 1, v, 0, _ => by simp [leBytes]
  | n + 1, v, j + 1, hj => by
      simp only [leBytes, List.getD_cons_succ]
      rw [leBytes_getD n (v / 256) j (by omega), Nat.div_div_eq_div_mul]
      rw [show (256 : Nat) * 2 ^ (8 * j) = 2 ^ (8 * (j + 1)) from (pow8succ j).symm]

theorem slotData_length (e : List Nat) : (slotData e).length = 8 := by
  simp only [slotData, MINIMAC_MAX_DATA, List.length_take, List.length_append,
    List.length_replicate]
  omega

theorem slotData_lt (e : List Nat) (heb : ∀ b ∈ e, b < 256) : ∀ b ∈ slotData e, b < 256 := by
  intro b hb
  have hb2 : b ∈ e ++ List.replicate MINIMAC_MAX_DATA 0 := List.mem_of_mem_take hb
  rcases List.mem_append.1 hb2 with h | h
  · exact heb b h
  · have := List.eq_of_mem_replicate h
    omega

theorem saveSlots_eq_of_lt : ∀ (hist : List (List Nat)) (addr : Nat) (σ : Storage) (a : Nat),
    a < addr → saveSlots addr hist σ a = σ a
  | [], _, _, _, _ => rfl
  | e :: rest, addr, σ, a, h => by
      simp only [saveSlots]
      rw [saveSlots_eq_of_lt rest (addr + 9) _ a (by omega),
        putBytes_eq_of_lt _ (addr + 1) _ a (by omega),
        putBytes_eq_of_lt _ addr _ a (by omega)]

theorem saveSlots_eq_of_ge : ∀ (hist : List (List Nat)) (addr : Nat) (σ : Storage) (a : Nat),
    addr + 9 * hist.length ≤ a → saveSlots addr hist σ a = σ a
  | [], _, _, _, _ => rfl
  | e :: rest, addr, σ, a, h => by
      have hl : addr + 9 * (rest.length + 1) ≤ a := by simpa using h
      simp only [saveSlots]
      rw [saveSlots_eq_of_ge rest (addr + 9) _ a (by omega),
        putBytes_eq_of_ge _ (addr + 1) _ a (by rw [slotData_length]; omega),
        putBytes_eq_of_ge _ addr _ a
          (by simp only [List.length_cons, List.length_nil]; omega)]

theorem range_map_getD : ∀ (bs : List Nat),
    (List.range bs.length).map (fun j => bs.getD j 0) = bs
  | [] => rfl
  | b :: rest => by
      rw [List.length_cons, List.range_succ_eq_map, List.map_cons, List.map_map]
      rw [show (fun j => (b :: rest).getD j 0) ∘ Nat.succ = fun j => rest.getD j 0 from rfl]
      rw [range_map_getD rest]
      rfl

theorem loadSlots_saveSlots : ∀ (hist : List (List Nat)) (addr : Nat) (σ : Storage),
    (∀ e ∈ hist, e.length ≤ MINIMAC_MAX_DATA) →
    (∀ e ∈ hist, ∀ b ∈ e, b < 256) →
    loadSlots (saveSlots addr hist σ) addr hist.length = hist
  | [], _, _, _, _ => rfl
  | e :: rest, addr, σ, hent, hbytes => by
      have hel : e.length ≤ 8 := by
        have := hent e (by simp)
        simpa [MINIMAC_MAX_DATA] using this
      have heb : ∀ b ∈ e, b < 256 := hbytes e (by simp)
      have hσs : saveSlots addr (e :: rest) σ addr = e.length := by
        simp only [saveSlots]
        rw [saveSlots_eq_of_lt rest (addr + 9) _ addr (by omega),
          putBytes_eq_of_lt (slotData e) (addr + 1) _ addr (by omega)]
        have h0 := putBytes_getD [e.length] addr σ 0 (by simp)
        simp only [Nat.add_zero] at h0
        rw [h0]
        simp only [List.getD_cons_zero]
        omega
      have hblock : ∀ j, j < 8 → saveSlots addr (e :: rest) σ (addr + 1 + j)
          = (slotData e).getD j 0 % 256 := by
        intro j hj
        simp only [saveSlots]
        rw [saveSlots_eq_of_lt rest (addr + 9) _ _ (by omega)]
        exact putBytes_getD (slotData e) (addr + 1) (putBytes addr [e.length] σ) j
          (by rw [slotData_length]; omega)
      have hmap : ((List.range 8).map fun j => saveSlots addr (e :: rest) σ (addr + 1 + j))
          = slotData e := by
        have h1 : ((List.range 8).map fun j => saveSlots addr (e :: rest) σ (addr + 1 + j))
            = (List.range 8).map fun j => (slotData e).getD j 0 := by
          refine List.map_congr_left ?_
          intro j hj
          rw [hblock j (List.mem_range.1 hj)]
          have hj8 : j < (slotData e).length := by
            rw [slotData_length]
            exact List.mem_range.1 hj
          have hmem : (slotData e).getD j 0 ∈ slotData e := by
            rw [List.getD_eq_getElem _ _ hj8]
            exact List.getElem_mem hj8
          have := slotData_lt e heb _ hmem
          omega
        rw [h1, show (8 : Nat) = (slotData e).length from (slotData_length e).symm,
          range_map_getD]
      have htake : (slotData e).take e.length = e := by
        unfold slotData
        rw [List.take_take, show min e.length MINIMAC_MAX_DATA = e.length from by
          simp only [MINIMAC_MAX_DATA]; omega]
        exact List.take_left' rfl
      have hrec : loadSlots (saveSlots addr (e :: rest) σ) (addr + 9) rest.length = rest := by
        simp only [saveSlots]
        exact loadSlots_saveSlots rest (addr + 9) _
          (fun x hx => hent x (by simp [hx])) (fun x hx => hbytes x (by simp [hx]))
      show loadSlots (saveSlots addr (e :: rest) σ) addr (rest.length + 1) = e :: rest
      simp only [loadSlots, MINIMAC_MAX_DATA]
      rw [hσs, hmap, htake, hrec]

theorem save_state_sig (c : Nat) (hist : List (List Nat)) (σ : Storage) :
    getLE (save_state c hist σ) 0 4 = SIGVAL := by
  show getLE (saveSlots 13 hist (putBytes 12 [hist.length] (putBytes 4 (leBytes c 8)
    (putBytes 0 (leBytes SIGVAL 4) σ)))) 0 4 = SIGVAL
  rw [getLE_congr 4 _ (putBytes 0 (leBytes SIGVAL 4) σ) 0 (fun j hj => by
    rw [saveSlots_eq_of_lt hist 13 _ _ (by omega),
      putBytes_eq_of_lt _ 12 _ _ (by omega),
      putBytes_eq_of_lt (leBytes c 8) 4 _ _ (by omega)])]
  rw [getLE_putBytes_leBytes 4 SIGVAL 0 σ]
  decide

theorem save_state_counter (c : Nat) (hist : List (List Nat)) (σ : Storage) :
    getLE (save_state c hist σ) 4 8 = c % 2 ^ 64 := by
  show getLE (saveSlots 13 hist (putBytes 12 [hist.length] (putBytes 4 (leBytes c 8)
    (putBytes 0 (leBytes SIGVAL 4) σ)))) 4 8 = c % 2 ^ 64
  rw [getLE_congr 8 _ (putBytes 4 (leBytes c 8) (putBytes 0 (leBytes SIGVAL 4) σ)) 4
    (fun j hj => by
      rw [saveSlots_eq_of_lt hist 13 _ _ (by omega),
        putBytes_eq_of_lt _ 12 _ _ (by omega)])]
  exact getLE_putBytes_leBytes 8 c 4 (putBytes 0 (leBytes SIGVAL 4) σ)

theorem save_state_cnt (c : Nat) (hist : List (List Nat)) (σ : Storage) :
    save_state c hist σ 12 = hist.length % 256 := by
  show saveSlots 13 hist (putBytes 12 [hist.length] (putBytes 4 (leBytes c 8)
    (putBytes 0 (leBytes SIGVAL 4) σ))) 12 = hist.length % 256
  rw [saveSlots_eq_of_lt hist 13 _ _ (by omega)]
  have h0 := putBytes_getD [hist.length] 12 (putBytes 4 (leBytes c 8)
    (putBytes 0 (leBytes SIGVAL 4) σ)) 0 (by simp)
  simp only [Nat.add_zero, List.getD_cons_zero] at h0
  exact h0

theorem save_state_slots (c : Nat) (hist : List (List Nat)) (σ : Storage)
    (hent : ∀ e ∈ hist, e.length ≤ MINIMAC_MAX_DATA)
    (hbytes : ∀ e ∈ hist, ∀ b ∈ e, b < 256) :
    loadSlots (save_state c hist σ) 13 hist.length = hist := by
  show loadSlots (saveSlots 13 hist (putBytes 12 [hist.length] (putBytes 4 (leBytes c 8)
    (putBytes 0 (leBytes SIGVAL 4) σ)))) 13 hist.length = hist
  exact loadSlots_saveSlots hist 13 _ hent hbytes

theorem load_state_save_state (c : Nat) (hist : List (List Nat)) (σ : Storage)
    (hc : c < 2 ^ 64) (hlen : hist.length ≤ MINIMAC_HIST_LEN)
    (hent : ∀ e ∈ hist, e.length ≤ MINIMAC_MAX_DATA)
    (hbytes : ∀ e ∈ hist, ∀ b ∈ e, b < 256) :
    load_state (save_state c hist σ) = some (c, hist) := by
  have hcnt : hist.length % 256 = hist.length := by
    have h5 : hist.length ≤ 5 := by simpa [MINIMAC_HIST_LEN] using hlen
    omega
  show (if getLE (save_state c hist σ) 0 4 = SIGVAL
      then some (getLE (save_state c hist σ) 4 8,
        loadSlots (save_state c hist σ) 13 (save_state c hist σ 12))
      else none) = some (c, hist)
  rw [save_state_sig, if_pos rfl, save_state_counter, save_state_cnt, hcnt,
    Nat.mod_eq_of_lt hc, save_state_slots c hist σ hent hbytes]

theorem beBytes_inj : ∀ (n : Nat) {v w : Nat}, v < 2 ^ (8 * n) → w < 2 ^ (8 * n) →
    beBytes v n = beBytes w n → v = w
  | 0, v, w, hv, hw, _ => by
      simp only [Nat.mul_zero, pow_zero] at hv hw
      omega
  | n + 1, v, w, hv, hw, h => by
      simp only [beBytes] at h
      obtain ⟨h1, h2⟩ := List.append_inj' h rfl
      have hmod : v % 256 = w % 256 := by simpa using h2
      have hp := pow8succ n
      have hdiv : v / 256 = w / 256 := beBytes_inj n (by omega) (by omega) h1
      omega

theorem authInput_take8 (s : MMState) (p : List Nat) :
    (authInput s p).take 8 = beBytes s.counter 8 :=
  List.take_left' (beBytes_length s.counter 8)

theorem listEnc_inj : ∀ (x y : List Nat), listEnc x = listEnc y → x = y
  | [], [], _ => rfl
  | [], _ :: _, h => by simp [listEnc] at h
  | _ :: _, [], h => by simp [listEnc] at h
  | a :: x, b :: y, h => by
      have h1 : Nat.pair a (listEnc x) = Nat.pair b (listEnc y) := by
        simp only [listEnc] at h
        omega
      have h2 := congrArg Nat.unpair h1
      simp only [Nat.unpair_pair, Prod.mk.injEq] at h2
      rw [h2.1, listEnc_inj x y h2.2]

theorem sepHmac_sep (k : List Nat) : ∀ x y : List Nat, x.take 8 ≠ y.take 8 →
    (sepHmac k x).take MINIMAC_TAG_LEN ≠ (sepHmac k y).take MINIMAC_TAG_LEN := by
  intro x y hne he
  apply hne
  simp only [sepHmac, MINIMAC_TAG_LEN, List.take_succ_cons, List.take_zero,
    List.cons.injEq] at he
  exact listEnc_inj _ _ he.1

theorem runEvents_counter (hmac : List Nat → List Nat → List Nat) :
    ∀ (es : List MMEvent) (st : MMState × Storage), st.1.counter < 2 ^ 64 →
    (runEvents hmac st es).1.counter = (st.1.counter + succCount hmac st es) % 2 ^ 64
  | [], st, hc => by
      show st.1.counter = (st.1.counter + 0) % 2 ^ 64
      omega
  | .sgn p :: es, st, hc => by
      have hlt : (stepEv hmac st (.sgn p)).1.counter < 2 ^ 64 := by
        show (st.1.counter + 1) % 2 ^ 64 < 2 ^ 64
        exact Nat.mod_lt _ (by positivity)
      have ih := runEvents_counter hmac es (stepEv hmac st (.sgn p)) hlt
      show (runEvents hmac (stepEv hmac st (.sgn p)) es).1.counter
        = (st.1.counter + (1 + succCount hmac (stepEv hmac st (.sgn p)) es)) % 2 ^ 64
      rw [ih]
      show ((st.1.counter + 1) % 2 ^ 64 + succCount hmac (stepEv hmac st (.sgn p)) es)
          % 2 ^ 64 = _
      rw [Nat.mod_add_mod]
      congr 1
      omega
  | .vfy p t :: es, st, hc => by
      by_cases h : (hmac st.1.key (authInput st.1 p)).take MINIMAC_TAG_LEN
          = t.take MINIMAC_TAG_LEN
      · have he := verify_true_eq hmac st.1 p t st.2 h
        have hlt : (stepEv hmac st (.vfy p t)).1.counter < 2 ^ 64 := by
          show (minimac_verify hmac st.1 p t st.2).2.1.counter < 2 ^ 64
          rw [he]
          show (st.1.counter + 1) % 2 ^ 64 < 2 ^ 64
          exact Nat.mod_lt _ (by positivity)
        have ih := runEvents_counter hmac es (stepEv hmac st (.vfy p t)) hlt
        show (runEvents hmac (stepEv hmac st (.vfy p t)) es).1.counter
          = (st.1.counter + ((if (minimac_verify hmac st.1 p t st.2).1 then 1 else 0)
              + succCount hmac (stepEv hmac st (.vfy p t)) es)) % 2 ^ 64
        rw [ih]
        have h1 : (minimac_verify hmac st.1 p t st.2).1 = true := by rw [he]
        have hif : (if (minimac_verify hmac st.1 p t st.2).1 then (1 : Nat) else 0) = 1 := by
          simp [h1]
        have h2 : (stepEv hmac st (.vfy p t)).1.counter = (st.1.counter + 1) % 2 ^ 64 := by
          show (minimac_verify hmac st.1 p t st.2).2.1.counter = _
          rw [he]
          rfl
        rw [hif, h2, Nat.mod_add_mod]
        congr 1
        omega
      · have he := verify_false_eq hmac st.1 p t st.2 h
        have hstep : stepEv hmac st (.vfy p t) = st := by
          show ((minimac_verify hmac st.1 p t st.2).2.1,
            (minimac_verify hmac st.1 p t st.2).2.2) = st
          rw [he]
        have ih := runEvents_counter hmac es (stepEv hmac st (.vfy p t))
          (by rw [hstep]; exact hc)
        show (runEvents hmac (stepEv hmac st (.vfy p t)) es).1.counter
          = (st.1.counter + ((if (minimac_verify hmac st.1 p t st.2).1 then 1 else 0)
              + succCount hmac (stepEv hmac st (.vfy p t)) es)) % 2 ^ 64
        rw [ih]
        have h1 : (minimac_verify hmac st.1 p t st.2).1 = false := by rw [he]
        have hif : (if (minimac_verify hmac st.1 p t st.2).1 then (1 : Nat) else 0) = 0 := by
          simp [h1]
        rw [hif, hstep]
        congr 1
        omega

end Lemmas

/-- Claim C1: for every engine state and payload of length ≤ M, the tag that
sign appends to the payload buffer, and the tag verify compares the received
tag against, are the first `MINIMAC_TAG_LEN` bytes of `hmac(key, input)` where
`input` is exactly the 8-byte big-endian counter, the 2-byte big-endian
channel id, the stored history entries concatenated in ledger order, then the
payload bytes. -/
theorem c1_tag_composition (hmac : List Nat → List Nat → List Nat) (s : MMState)
    (p t : List Nat) (σ : Storage) (hp : p.length ≤ MINIMAC_MAX_DATA) :
    (minimac_sign hmac s p σ).1.drop p.length
        = List.take MINIMAC_TAG_LEN
            (hmac s.key (beBytes s.counter 8 ++ beBytes s.id 2 ++ s.hist.flatten ++ p))
      ∧ ((minimac_verify hmac s p t σ).1 = true
          ↔ List.take MINIMAC_TAG_LEN
                (hmac s.key (beBytes s.counter 8 ++ beBytes s.id 2 ++ s.hist.flatten ++ p))
              = t.take MINIMAC_TAG_LEN) := by
  constructor
  · show (p ++ _).drop p.length = _
    rw [List.drop_left]
    rfl
  · by_cases h : (hmac s.key (authInput s p)).take MINIMAC_TAG_LEN = t.take MINIMAC_TAG_LEN
    · rw [verify_true_eq hmac s p t σ h]
      exact iff_of_true rfl h
    · rw [verify_false_eq hmac s p t σ h]
      exact iff_of_false (by simp) h

/-- Witness for C1 at a concrete state and payload. -/
theorem c1_tag_composition_witness :
    ([1, 2] : List Nat).length ≤ MINIMAC_MAX_DATA
      ∧ ((minimac_sign demoHmac demoState [1, 2] zeroStorage).1.drop 2
          = List.take MINIMAC_TAG_LEN
              (demoHmac demoState.key
                (beBytes demoState.counter 8 ++ beBytes demoState.id 2
                  ++ demoState.hist.flatten ++ [1, 2]))
        ∧ ((minimac_verify demoHmac demoState [1, 2] [0, 0, 0, 0] zeroStorage).1 = true
            ↔ List.take MINIMAC_TAG_LEN
                  (demoHmac demoState.key
                    (beBytes demoState.counter 8 ++ beBytes demoState.id 2
                      ++ demoState.hist.flatten ++ [1, 2]))
                = ([0, 0, 0, 0] : List Nat).take MINIMAC_TAG_LEN)) :=
  ⟨by decide, c1_tag_composition demoHmac demoState [1, 2] [0, 0, 0, 0] zeroStorage (by decide)⟩

/-- Claim C2: verify mutates state iff it returns success — on tag mismatch it
returns failure leaving the counter/ledger state and the persisted snapshot
untouched; on match it produces exactly the state and snapshot that sign's
append/evict + increment + persist sequence produces. -/
theorem c2_verify_mutates_iff_success (hmac : List Nat → List Nat → List Nat)
    (s : MMState) (p t : List Nat) (σ : Storage) (hc : s.counter < 2 ^ 64) :
    ((minimac_verify hmac s p t σ).1 = false →
        (minimac_verify hmac s p t σ).2.1 = s ∧ (minimac_verify hmac s p t σ).2.2 = σ)
      ∧ ((minimac_verify hmac s p t σ).1 = true →
        (minimac_verify hmac s p t σ).2.1 ≠ s
          ∧ (minimac_verify hmac s p t σ).2.1 = (minimac_sign hmac s p σ).2.2.1
          ∧ (minimac_verify hmac s p t σ).2.2 = (minimac_sign hmac s p σ).2.2.2) := by
  by_cases h : (hmac s.key (authInput s p)).take MINIMAC_TAG_LEN = t.take MINIMAC_TAG_LEN
  · rw [verify_true_eq hmac s p t σ h]
    refine ⟨fun hfalse => absurd hfalse (by simp), fun _ => ⟨?_, rfl, rfl⟩⟩
    exact advanceState_ne s p hc
  · rw [verify_false_eq hmac s p t σ h]
    exact ⟨fun _ => ⟨rfl, rfl⟩, fun htrue => absurd htrue (by simp)⟩

/-- Witness for C2 at a concrete state, payload and tag. -/
theorem c2_verify_mutates_iff_success_witness :
    demoState.counter < 2 ^ 64
      ∧ (((minimac_verify demoHmac demoState [1, 2] [0, 0, 0, 0] zeroStorage).1 = false →
          (minimac_verify demoHmac demoState [1, 2] [0, 0, 0, 0] zeroStorage).2.1 = demoState
            ∧ (minimac_verify demoHmac demoState [1, 2] [0, 0, 0, 0] zeroStorage).2.2
                = zeroStorage)
        ∧ ((minimac_verify demoHmac demoState [1, 2] [0, 0, 0, 0] zeroStorage).1 = true →
          (minimac_verify demoHmac demoState [1, 2] [0, 0, 0, 0] zeroStorage).2.1 ≠ demoState
            ∧ (minimac_verify demoHmac demoState [1, 2] [0, 0, 0, 0] zeroStorage).2.1
                = (minimac_sign demoHmac demoState [1, 2] zeroStorage).2.2.1
            ∧ (minimac_verify demoHmac demoState [1, 2] [0, 0, 0, 0] zeroStorage).2.2
                = (minimac_sign demoHmac demoState [1, 2] zeroStorage).2.2.2)) :=
  ⟨by decide,
    c2_verify_mutates_iff_success demoHmac demoState [1, 2] [0, 0, 0, 0] zeroStorage (by decide)⟩

/-- Claim C4: the history ledger is a bounded strict FIFO — after sign and
after verify its length stays ≤ L and every entry's length stays ≤ M; an
append at capacity drops the oldest entry (index 0) by the shift and inserts
the new entry at the end; and after L + 1 appends from empty the first
appended entry is absent from the ledger (hence from later digest inputs). -/
theorem c4_ledger_fifo (hmac : List Nat → List Nat → List Nat) (s : MMState)
    (p t : List Nat) (σ : Storage) (hlen : s.hist.length ≤ MINIMAC_HIST_LEN)
    (hent : ∀ e ∈ s.hist, e.length ≤ MINIMAC_MAX_DATA) (hp : p.length ≤ MINIMAC_MAX_DATA) :
    (((minimac_sign hmac s p σ).2.2.1).hist.length ≤ MINIMAC_HIST_LEN
        ∧ ∀ e ∈ ((minimac_sign hmac s p σ).2.2.1).hist, e.length ≤ MINIMAC_MAX_DATA)
      ∧ (((minimac_verify hmac s p t σ).2.1).hist.length ≤ MINIMAC_HIST_LEN
        ∧ ∀ e ∈ ((minimac_verify hmac s p t σ).2.1).hist, e.length ≤ MINIMAC_MAX_DATA)
      ∧ (s.hist.length = MINIMAC_HIST_LEN →
          histAppend s.hist p = s.hist.drop 1 ++ [p])
      ∧ ∀ e1 e2 e3 e4 e5 e6 : List Nat,
          [e1, e2, e3, e4, e5, e6].foldl histAppend [] = [e2, e3, e4, e5, e6] := by
  refine ⟨⟨histAppend_length_le s.hist p hlen, histAppend_entry_le s.hist p hent hp⟩,
    ⟨?_, ?_⟩, fun hfull => by simp only [histAppend, if_pos hfull],
    fun e1 e2 e3 e4 e5 e6 => by simp [histAppend, MINIMAC_HIST_LEN]⟩
  · by_cases h : (hmac s.key (authInput s p)).take MINIMAC_TAG_LEN = t.take MINIMAC_TAG_LEN
    · rw [verify_true_eq hmac s p t σ h]
      exact histAppend_length_le s.hist p hlen
    · rw [verify_false_eq hmac s p t σ h]
      exact hlen
  · by_cases h : (hmac s.key (authInput s p)).take MINIMAC_TAG_LEN = t.take MINIMAC_TAG_LEN
    · rw [verify_true_eq hmac s p t σ h]
      exact histAppend_entry_le s.hist p hent hp
    · rw [verify_false_eq hmac s p t σ h]
      exact hent

/-- Witness for C4 at a concrete full-ledger state. -/
theorem c4_ledger_fifo_witness :
    (({ demoState with hist := [[1], [2], [3], [4], [5]] } : MMState).hist.length
          ≤ MINIMAC_HIST_LEN
        ∧ (∀ e ∈ ({ demoState with hist := [[1], [2], [3], [4], [5]] } : MMState).hist,
            e.length ≤ MINIMAC_MAX_DATA)
        ∧ ([9, 9] : List Nat).length ≤ MINIMAC_MAX_DATA)
      ∧ histAppend ({ demoState with hist := [[1], [2], [3], [4], [5]] } : MMState).hist [9, 9]
          = ({ demoState with hist := [[1], [2], [3], [4], [5]] } : MMState).hist.drop 1
              ++ [[9, 9]] := by
  refine ⟨⟨by decide, by decide, by decide⟩, ?_⟩
  exact (c4_ledger_fifo demoHmac { demoState with hist := [[1], [2], [3], [4], [5]] }
    [9, 9] [0, 0, 0, 0] zeroStorage (by decide) (by decide) (by decide)).2.2.1 (by decide)

/-- Claim C6: `save_state` followed by `load_state` against the same storage
reproduces exactly the persisted counter and ledger, for every counter value,
ledger size up to L and entry length up to M. -/
theorem c6_save_load_roundtrip (c : Nat) (hist : List (List Nat)) (σ : Storage)
    (hc : c < 2 ^ 64) (hlen : hist.length ≤ MINIMAC_HIST_LEN)
    (hent : ∀ e ∈ hist, e.length ≤ MINIMAC_MAX_DATA)
    (hbytes : ∀ e ∈ hist, ∀ b ∈ e, b < 256) :
    load_state (save_state c hist σ) = some (c, hist) :=
  load_state_save_state c hist σ hc hlen hent hbytes

/-- Witness for C6 at a concrete counter, two-entry ledger and storage. -/
theorem c6_save_load_roundtrip_witness :
    ((3 : Nat) < 2 ^ 64 ∧ ([[1, 2], [3]] : List (List Nat)).length ≤ MINIMAC_HIST_LEN
        ∧ (∀ e ∈ ([[1, 2], [3]] : List (List Nat)), e.length ≤ MINIMAC_MAX_DATA)
        ∧ ∀ e ∈ ([[1, 2], [3]] : List (List Nat)), ∀ b ∈ e, b < 256)
      ∧ load_state (save_state 3 [[1, 2], [3]] zeroStorage) = some (3, [[1, 2], [3]]) :=
  ⟨⟨by decide, by decide, by decide, by decide⟩,
    c6_save_load_roundtrip 3 [[1, 2], [3]] zeroStorage (by decide) (by decide)
      (by decide) (by decide)⟩

/-- Claim C7: when any byte of the leading 4-byte magic signature differs from
the expected constant, `load_state` reports absent state, and `minimac_init`
then establishes a fresh zero state (counter 0, empty ledger) and persists it
(the persisted image loads back as the fresh zero state). -/
theorem c7_corrupt_magic_fresh_init (can_id : Nat) (key : List Nat) (σ : Storage)
    (hb : ∀ j, j < 4 → σ j < 256)
    (halt : ∃ j, j < 4 ∧ σ j ≠ (leBytes SIGVAL 4).getD j 0) :
    load_state σ = none
      ∧ (minimac_init can_id key σ).1.counter = 0
      ∧ (minimac_init can_id key σ).1.hist = []
      ∧ load_state (minimac_init can_id key σ).2 = some (0, []) := by
  have hsig : ¬getLE σ 0 4 = SIGVAL := by
    intro he
    obtain ⟨j, hj, hne⟩ := halt
    have hbb : ∀ i, i < 4 → σ (0 + i) < 256 := fun i hi => by
      have := hb i hi
      simpa using this
    have hbyte := getLE_byte 4 σ 0 hbb j hj
    rw [he] at hbyte
    simp only [Nat.zero_add] at hbyte
    rw [leBytes_getD 4 SIGVAL j hj] at hne
    exact hne hbyte.symm
  have hload : load_state σ = none := by
    show (if getLE σ 0 4 = SIGVAL then _ else none) = none
    rw [if_neg hsig]
  refine ⟨hload, ?_, ?_, ?_⟩
  · simp only [minimac_init, hload]
  · simp only [minimac_init, hload]
  · simp only [minimac_init, hload]
    exact load_state_save_state 0 [] σ (by decide) (by decide)
      (by simp) (by simp)

/-- Witness for C7 at the all-zero storage (its signature bytes are all
altered relative to the expected magic bytes). -/
theorem c7_corrupt_magic_fresh_init_witness :
    ((∀ j, j < 4 → zeroStorage j < 256)
        ∧ ∃ j, j < 4 ∧ zeroStorage j ≠ (leBytes SIGVAL 4).getD j 0)
      ∧ load_state zeroStorage = none
      ∧ (minimac_init 0x123 (List.replicate 16 7) zeroStorage).1.counter = 0
      ∧ (minimac_init 0x123 (List.replicate 16 7) zeroStorage).1.hist = []
      ∧ load_state (minimac_init 0x123 (List.replicate 16 7) zeroStorage).2 = some (0, []) :=
  ⟨⟨fun j _ => by show (0 : Nat) < 256; omega, ⟨0, by omega, by decide⟩⟩,
    c7_corrupt_magic_fresh_init 0x123 (List.replicate 16 7) zeroStorage
      (fun j _ => by show (0 : Nat) < 256; omega) ⟨0, by omega, by decide⟩⟩

/-- Counterexample for C8: `save_state` does not write length/data fields for
the slots beyond the current entry count — with an empty ledger, the byte at
address 13 (the first slot's length field, well inside the claimed fixed
4 + 8 + 1 + L×(1+M)-byte span) keeps whatever value the previous snapshot
left there, so the previous snapshot is not fully overwritten. -/
theorem c8_counterexample :
    13 < 4 + 8 + 1 + MINIMAC_HIST_LEN * (1 + MINIMAC_MAX_DATA)
      ∧ save_state 0 [] (fun _ => 99) 13 = 99
      ∧ save_state 0 [] (fun _ => 7) 13 = 7 :=
  ⟨by decide, rfl, rfl⟩

/-- Claim C8 as amended: `save_state` writes the signature, the counter, the
entry count, and then a length byte plus a fixed `MINIMAC_MAX_DATA`-byte data
block only for each of the `mm_hist_cnt` stored entries (9-byte slot stride);
every address at or beyond `4 + 8 + 1 + cnt×(1+M)` — in particular the unused
slots up to L — is left untouched. -/
theorem c8_amended_save_extent (c : Nat) (hist : List (List Nat)) (σ : Storage) (a : Nat)
    (ha : 4 + 8 + 1 + hist.length * (1 + MINIMAC_MAX_DATA) ≤ a) :
    save_state c hist σ a = σ a := by
  show saveSlots 13 hist (putBytes 12 [hist.length] (putBytes 4 (leBytes c 8)
    (putBytes 0 (leBytes SIGVAL 4) σ))) a = σ a
  have h9 : 13 + 9 * hist.length ≤ a := by
    have hm : MINIMAC_MAX_DATA = 8 := rfl
    rw [hm] at ha
    omega
  rw [saveSlots_eq_of_ge hist 13 _ a h9,
    putBytes_eq_of_ge [hist.length] 12 _ a
      (by simp only [List.length_cons, List.length_nil]; omega),
    putBytes_eq_of_ge (leBytes c 8) 4 _ a (by rw [leBytes_length]; omega),
    putBytes_eq_of_ge (leBytes SIGVAL 4) 0 _ a (by rw [leBytes_length]; omega)]

/-- Witness for the amended C8: with a one-entry ledger, address 22 (the
second slot) is untouched by `save_state`. -/
theorem c8_amended_save_extent_witness :
    4 + 8 + 1 + ([[1, 2]] : List (List Nat)).length * (1 + MINIMAC_MAX_DATA) ≤ 22
      ∧ save_state 3 [[1, 2]] (fun _ => 42) 22 = (fun _ => (42 : Nat)) 22 :=
  ⟨by decide, c8_amended_save_extent 3 [[1, 2]] (fun _ => 42) 22 (by decide)⟩

/-- Claim C3: a tag produced by sign against a state verifies successfully
against that same prior state; every state-advancing operation changes the
counter (so the success happens exactly once); and against any state whose
counter has advanced — on either side, with the same key — the same
(payload, tag) pair is rejected, provided the keyed hash separates digest
inputs that differ in their leading 8 counter bytes. -/
theorem c3_sign_verify_replay (hmac : List Nat → List Nat → List Nat)
    (s : MMState) (p : List Nat) (σ σ2 σ3 : Storage) (hc : s.counter < 2 ^ 64)
    (hsep : ∀ x y : List Nat, x.take 8 ≠ y.take 8 →
      (hmac s.key x).take MINIMAC_TAG_LEN ≠ (hmac s.key y).take MINIMAC_TAG_LEN) :
    (minimac_verify hmac s p ((minimac_sign hmac s p σ).1.drop p.length) σ2).1 = true
      ∧ (∀ q, (advanceState s q).counter ≠ s.counter
          ∧ (advanceState s q).counter < 2 ^ 64)
      ∧ ∀ s2 : MMState, s2.key = s.key → s2.counter < 2 ^ 64 → s2.counter ≠ s.counter →
          (minimac_verify hmac s2 p ((minimac_sign hmac s p σ).1.drop p.length) σ3).1
            = false := by
  have htag : (minimac_sign hmac s p σ).1.drop p.length
      = (hmac s.key (authInput s p)).take MINIMAC_TAG_LEN := by
    show (p ++ _).drop p.length = _
    rw [List.drop_left]
  refine ⟨?_, ?_, ?_⟩
  · rw [htag, verify_true_eq hmac s p _ σ2 (by rw [List.take_take, min_self])]
  · intro q
    refine ⟨?_, ?_⟩
    · show (s.counter + 1) % 2 ^ 64 ≠ s.counter
      exact counter_advance_ne hc
    · show (s.counter + 1) % 2 ^ 64 < 2 ^ 64
      exact Nat.mod_lt _ (by positivity)
  · intro s2 hkey hc2 hcne
    rw [htag]
    have hinput : (authInput s2 p).take 8 ≠ (authInput s p).take 8 := by
      rw [authInput_take8, authInput_take8]
      intro hbe
      exact hcne (beBytes_inj 8 hc2 hc hbe)
    have htagne := hsep _ _ hinput
    rw [verify_false_eq hmac s2 p _ σ3 (by
      rw [List.take_take, min_self, hkey]
      exact htagne)]

/-- Witness for C3 at a concrete state, payload and separating hash. -/
theorem c3_sign_verify_replay_witness :
    (demoState.counter < 2 ^ 64
        ∧ ∀ x y : List Nat, x.take 8 ≠ y.take 8 →
            (sepHmac demoState.key x).take MINIMAC_TAG_LEN
              ≠ (sepHmac demoState.key y).take MINIMAC_TAG_LEN)
      ∧ (minimac_verify sepHmac demoState [1, 2]
            ((minimac_sign sepHmac demoState [1, 2] zeroStorage).1.drop 2) zeroStorage).1
          = true
      ∧ (∀ q, (advanceState demoState q).counter ≠ demoState.counter
          ∧ (advanceState demoState q).counter < 2 ^ 64)
      ∧ ∀ s2 : MMState, s2.key = demoState.key → s2.counter < 2 ^ 64 →
          s2.counter ≠ demoState.counter →
          (minimac_verify sepHmac s2 [1, 2]
              ((minimac_sign sepHmac demoState [1, 2] zeroStorage).1.drop 2) zeroStorage).1
            = false :=
  ⟨⟨by decide, sepHmac_sep demoState.key⟩,
    c3_sign_verify_replay sepHmac demoState [1, 2] zeroStorage zeroStorage zeroStorage
      (by decide) (sepHmac_sep demoState.key)⟩

/-- Claim C5: starting from a fresh state (counter 0), after any sequence of
engine operations the counter equals the number of state-advancing calls —
every sign plus every successful verify — each contributing exactly 1, while
a failed verify leaves the counter unchanged. -/
theorem c5_counter_counts_successes (hmac : List Nat → List Nat → List Nat)
    (s0 : MMState) (σ0 : Storage) (es : List MMEvent) (h0 : s0.counter = 0)
    (hk : succCount hmac (s0, σ0) es < 2 ^ 64) :
    (runEvents hmac (s0, σ0) es).1.counter = succCount hmac (s0, σ0) es
      ∧ ∀ (s : MMState) (p t : List Nat) (σ : Storage),
          (minimac_verify hmac s p t σ).1 = false →
          (minimac_verify hmac s p t σ).2.1.counter = s.counter := by
  constructor
  · have hc0 : (s0, σ0).1.counter < 2 ^ 64 := by
      show s0.counter < 2 ^ 64
      rw [h0]
      positivity
    rw [runEvents_counter hmac es (s0, σ0) hc0]
    show (s0.counter + _) % 2 ^ 64 = _
    rw [h0, Nat.zero_add, Nat.mod_eq_of_lt hk]
  · intro s p t σ hf
    by_cases h : (hmac s.key (authInput s p)).take MINIMAC_TAG_LEN = t.take MINIMAC_TAG_LEN
    · rw [verify_true_eq hmac s p t σ h] at hf
      exact absurd hf (by simp)
    · rw [verify_false_eq hmac s p t σ h]

/-- Witness for C5 on a run with a sign, a failing verify and a matching
verify. -/
theorem c5_counter_counts_successes_witness :
    (demoState.counter = 0
        ∧ succCount demoHmac (demoState, zeroStorage)
            [MMEvent.sgn [1], MMEvent.vfy [2] [9, 9, 9, 9]] < 2 ^ 64)
      ∧ (runEvents demoHmac (demoState, zeroStorage)
            [MMEvent.sgn [1], MMEvent.vfy [2] [9, 9, 9, 9]]).1.counter
          = succCount demoHmac (demoState, zeroStorage)
              [MMEvent.sgn [1], MMEvent.vfy [2] [9, 9, 9, 9]]
      ∧ ∀ (s : MMState) (p t : List Nat) (σ : Storage),
          (minimac_verify demoHmac s p t σ).1 = false →
          (minimac_verify demoHmac s p t σ).2.1.counter = s.counter :=
  ⟨⟨rfl, by decide⟩,
    c5_counter_counts_successes demoHmac demoState zeroStorage
      [MMEvent.sgn [1], MMEvent.vfy [2] [9, 9, 9, 9]] rfl (by decide)⟩

/-- Counterexample for C9: a 9-byte payload exceeding M = 8 is not rejected
fail-closed — sign proceeds: it writes a tag into the buffer (total length
13), returns 13, appends the overlong payload to the history, increments the
counter, and writes the persistent snapshot. -/
theorem c9_counterexample :
    MINIMAC_MAX_DATA < p9.length
      ∧ (minimac_sign demoHmac demoState p9 zeroStorage).2.1 = 13
      ∧ (minimac_sign demoHmac demoState p9 zeroStorage).1.length = 13
      ∧ (minimac_sign demoHmac demoState p9 zeroStorage).2.2.1.counter = 1
      ∧ (minimac_sign demoHmac demoState p9 zeroStorage).2.2.1.hist = [p9]
      ∧ (minimac_sign demoHmac demoState p9 zeroStorage).2.2.2 0 = 0x55 :=
  ⟨by decide, rfl, rfl, rfl, rfl, rfl⟩

/-- Claim C9 as amended: sign and verify perform no payload-length check — a
payload longer than M is processed unconditionally (tag computed over all its
bytes and appended, payload appended to the history, counter incremented,
state persisted, return value (payload_len + tag_len) mod 256); bounding the
payload length is purely a caller precondition. -/
theorem c9_amended_no_length_check (hmac : List Nat → List Nat → List Nat)
    (s : MMState) (p t : List Nat) (σ : Storage) (hp : MINIMAC_MAX_DATA < p.length) :
    (minimac_sign hmac s p σ).2.1 = (p.length + MINIMAC_TAG_LEN) % 256
      ∧ (minimac_sign hmac s p σ).1
          = p ++ (hmac s.key (authInput s p)).take MINIMAC_TAG_LEN
      ∧ (minimac_sign hmac s p σ).2.2.1 = advanceState s p
      ∧ (minimac_sign hmac s p σ).2.2.2
          = save_state ((s.counter + 1) % 2 ^ 64) (histAppend s.hist p) σ
      ∧ ((hmac s.key (authInput s p)).take MINIMAC_TAG_LEN = t.take MINIMAC_TAG_LEN →
          (minimac_verify hmac s p t σ).2.1 = advanceState s p) :=
  ⟨rfl, rfl, rfl, rfl, fun h => by rw [verify_true_eq hmac s p t σ h]⟩

/-- Witness for the amended C9 at the 9-byte payload. -/
theorem c9_amended_no_length_check_witness :
    MINIMAC_MAX_DATA < p9.length
      ∧ (minimac_sign demoHmac demoState p9 zeroStorage).2.1
          = (p9.length + MINIMAC_TAG_LEN) % 256
      ∧ (minimac_sign demoHmac demoState p9 zeroStorage).2.2.1 = advanceState demoState p9 :=
  ⟨by decide,
    (c9_amended_no_length_check demoHmac demoState p9 [0, 0, 0, 0] zeroStorage (by decide)).1,
    (c9_amended_no_length_check demoHmac demoState p9 [0, 0, 0, 0] zeroStorage
      (by decide)).2.2.1⟩

/-- Claim C10 fails on the code: an EEPROM image with a valid magic signature
and an entry-count byte of 6 makes the restore loop of `load_state` iterate
over slot indices 0..5, so it writes history slot index 5, which is not
strictly below `MINIMAC_HIST_LEN = 5` — an out-of-bounds write into the
fixed 5-slot `mm_hist` array. -/
theorem c10_load_count_oob :
    getLE sigma6 0 4 = SIGVAL
      ∧ sigma6 12 = 6
      ∧ load_slot_indices sigma6 = List.range 6
      ∧ 5 ∈ load_slot_indices sigma6
      ∧ ¬5 < MINIMAC_HIST_LEN := by
  refine ⟨by decide, by decide, by decide, ?_, by decide⟩
  have h6 : load_slot_indices sigma6 = List.range 6 := by decide
  rw [h6]
  decide

end MiniMac
